import Mathlib

/-!
Verification of the rdepinfo repository-index and unsatisfied-dependency
resolver against its specification.

The visible repository holds the C ABI header (`src/include/rdepinfo.h`)
and a test caller (`src/c/test.cpp`); the implementation behind the header
is not present, so operations are modelled from the spec where noted,
while the data model (the `Constraint` enum, the `uint32_t` `Version`
struct, the constraint structs) is embedded from the header.
-/

namespace RDep

/-- From `enum Constraint : uint8_t { lt, lte, eq, gte, gt }` in rdepinfo.h. -/
inductive Constraint where
  | lt
  | lte
  | eq
  | gte
  | gt
deriving DecidableEq

/-- Reduction of a natural number into a `uint32_t` field: C unsigned
conversion is reduction modulo 2^32. -/
def u32 (n : Nat) : Nat := n % 2 ^ 32

/-- From `struct Version { uint32_t major, minor, patch, rev; }` in
rdepinfo.h.  Components are modelled as naturals that are always below
2^32; all construction goes through `Version.ofNats`. -/
structure Version where
  major : Nat
  minor : Nat
  patch : Nat
  rev : Nat
deriving DecidableEq

/-- Storing four arbitrary naturals into the `uint32_t` fields of a
`Version`: each is reduced modulo 2^32 as C unsigned conversion does. -/
def Version.ofNats (a b c d : Nat) : Version :=
  ⟨u32 a, u32 b, u32 c, u32 d⟩

/-- Three-way comparison of naturals, as an integer sign. -/
def cmpNat (a b : Nat) : Int :=
  if a < b then -1 else if b < a then 1 else 0

/-- Modelled from the spec: three-way `compare` on versions (the
implementation behind the header is absent).  "Ordering is lexicographic
over the tuple (major first).  Equality is component-wise." -/
def Version.compare (a b : Version) : Int :=
  if a.major ≠ b.major then cmpNat a.major b.major
  else if a.minor ≠ b.minor then cmpNat a.minor b.minor
  else if a.patch ≠ b.patch then cmpNat a.patch b.patch
  else cmpNat a.rev b.rev

/-- From `struct VersionConstraint { Constraint constraint; Version version; }`
in rdepinfo.h. -/
structure VersionConstraint where
  constraint : Constraint
  version : Version
deriving DecidableEq

/-- Modelled from the spec: "A candidate Version v satisfies a constraint
(op, ref) iff compare(v, ref) op 0 under the standard meaning of each
operator" (the implementation behind the header is absent). -/
def satisfies (v : Version) (c : VersionConstraint) : Bool :=
  match c.constraint with
  | .lt => decide (Version.compare v c.version < 0)
  | .lte => decide (Version.compare v c.version ≤ 0)
  | .eq => decide (Version.compare v c.version = 0)
  | .gte => decide (0 ≤ Version.compare v c.version)
  | .gt => decide (0 < Version.compare v c.version)

/-- Strict lexicographic order on the 4-tuple, written out from the
spec's words, to compare against `Version.compare`. -/
def lexLt (a b : Version) : Prop :=
  a.major < b.major ∨
    (a.major = b.major ∧
      (a.minor < b.minor ∨
        (a.minor = b.minor ∧
          (a.patch < b.patch ∨ (a.patch = b.patch ∧ a.rev < b.rev)))))

/-- Modelled from the spec: a dependency reference — "a package name
(byte string, non-empty) plus an optional VersionConstraint"; absence of
a constraint is absence of the value (the C ABI struct `CNameAndVersion`
serializes it densely, but the model is the spec's optional). -/
structure NameAndVersion where
  name : String
  constraint : Option VersionConstraint
deriving DecidableEq

/-- A missing constraint always succeeds; a present one is evaluated by
`satisfies`. -/
def satisfiesOpt (v : Version) (c : Option VersionConstraint) : Bool :=
  match c with
  | none => true
  | some vc => satisfies v vc

/-- Modelled from the spec: a parsed package record — name, own version,
ordered dependency list. -/
structure Package where
  name : String
  version : Version
  depends : List NameAndVersion

/-! ### Parser (modelled from the spec; implementation absent from src)

The text helpers work on `List Char` so that every parsing function is
structurally recursive and evaluable by the kernel. -/

/-- Whitespace characters recognized when trimming. -/
def isWs (c : Char) : Bool :=
  c = ' ' || c = '\t' || c = '\n' || c = '\r'

/-- Trim whitespace from both ends of a character list. -/
def trimList (l : List Char) : List Char :=
  ((l.dropWhile isWs).reverse.dropWhile isWs).reverse

/-- Split a character list at every occurrence of a separator. -/
def splitOnChar (c : Char) : List Char → List (List Char)
  | [] => [[]]
  | a :: as =>
    match splitOnChar c as with
    | [] => [[]]
    | s :: rest => if a = c then [] :: s :: rest else (a :: s) :: rest

/-- Split a character list at the first occurrence of a separator,
`none` when the separator does not occur. -/
def splitFirst (c : Char) : List Char → Option (List Char × List Char)
  | [] => none
  | a :: as =>
    if a = c then some ([], as)
    else
      match splitFirst c as with
      | none => none
      | some (x, y) => some (a :: x, y)

/-- Value of a decimal digit. -/
def digitVal (c : Char) : Option Nat :=
  if c.isDigit then some (c.toNat - '0'.toNat) else none

/-- Parse a non-empty all-digit character list as a natural. -/
def listToNat (l : List Char) : Option Nat :=
  if l.isEmpty then none
  else
    l.foldl
      (fun acc c =>
        match acc, digitVal c with
        | some a, some d => some (10 * a + d)
        | _, _ => none)
      (some 0)

/-- The dot-separated components of a version string, after trimming. -/
def versionParts (s : String) : List (List Char) :=
  splitOnChar '.' (trimList s.data)

/-- Parse the dot-separated components into naturals; `none` if any
component is not a numeral. -/
def parseComponents : List (List Char) → Option (List Nat)
  | [] => some []
  | p :: rest =>
    match listToNat (trimList p), parseComponents rest with
    | some n, some ns => some (n :: ns)
    | _, _ => none

/-- Modelled from the spec: "Version strings are parsed as up to four
dot-separated integers, left-padded with zero for missing trailing
components." -/
def parseVersion (s : String) : Option Version :=
  match parseComponents (versionParts s) with
  | none => none
  | some ns =>
    some (Version.ofNats (ns.getD 0 0) (ns.getD 1 0) (ns.getD 2 0) (ns.getD 3 0))

/-- Modelled from the spec: recognized operator tokens `<`, `<=`, `=`
(also `==`), `>=`, `>`. -/
def parseOp (s : String) : Option Constraint :=
  if s = "<" then some .lt
  else if s = "<=" then some .lte
  else if s = "=" then some .eq
  else if s = "==" then some .eq
  else if s = ">=" then some .gte
  else if s = ">" then some .gt
  else none

/-- Parse the inside of a `(op version)` constraint group. -/
def parseVc (l : List Char) : Option VersionConstraint :=
  match (splitOnChar ' ' l).filter (fun w => !w.isEmpty) with
  | [op, ver] =>
    match parseOp ⟨op⟩, parseVersion ⟨ver⟩ with
    | some o, some v => some ⟨o, v⟩
    | _, _ => none
  | _ => none

/-- Modelled from the spec: one dependency entry, grammar
`name [ "(" op version ")" ]`. -/
def parseDepEntry (s : String) : Option NameAndVersion :=
  match splitFirst '(' s.data with
  | none =>
    if (trimList s.data).isEmpty then none else some ⟨⟨trimList s.data⟩, none⟩
  | some (n, c) =>
    if (trimList n).isEmpty then none
    else
      match (trimList c).reverse with
      | ')' :: innerRev =>
        match parseVc innerRev.reverse with
        | some vc => some ⟨⟨trimList n⟩, some vc⟩
        | none => none
      | _ => none

/-- Modelled from the spec: a comma-separated dependency list. -/
def parseDeps (v : String) : Option (List NameAndVersion) :=
  if (trimList v.data).isEmpty then some []
  else (splitOnChar ',' v.data).mapM (fun e => parseDepEntry ⟨e⟩)

/-- Split one `Field: value` line at the first colon. -/
def fieldOf (line : String) : Option (String × String) :=
  match splitFirst ':' line.data with
  | none => none
  | some (f, rest) => some (⟨trimList f⟩, ⟨trimList rest⟩)

/-- First value of a named field in a stanza's lines. -/
def lookupField (st : List String) (f : String) : Option String :=
  (st.filterMap fieldOf).lookup f

/-- Modelled from the spec: parse one stanza into a `Package`; `none`
(stanza dropped) when the required `Package` field is missing or a
version / dependency token is unparsable; a missing `Version` field
defaults to 0.0.0.0. -/
def parseStanza (st : List String) : Option Package :=
  match lookupField st "Package" with
  | none => none
  | some nm =>
    if nm = "" then none
    else
      match (match lookupField st "Version" with
             | none => some (Version.ofNats 0 0 0 0)
             | some vs => parseVersion vs) with
      | none => none
      | some ver =>
        match (match lookupField st "Depends" with
               | none => some []
               | some v => parseDeps v) with
        | none => none
        | some d1 =>
          match (match lookupField st "Imports" with
                 | none => some []
                 | some v => parseDeps v) with
          | none => none
          | some d2 => some ⟨nm, ver, d1 ++ d2⟩

/-- Group a buffer's lines into stanzas at blank lines. -/
def splitStanzas : List String → List (List String)
  | [] => [[]]
  | l :: ls =>
    match splitStanzas ls with
    | [] => if (trimList l.data).isEmpty then [[]] else [[l]]
    | s :: rest =>
      if (trimList l.data).isEmpty then [] :: s :: rest else (l :: s) :: rest

/-- The non-empty stanzas of a buffer. -/
def stanzasOf (buf : String) : List (List String) :=
  (splitStanzas ((splitOnChar '\n' buf.data).map (fun l => ⟨l⟩))).filter
    (fun s => !s.isEmpty)

/-- Modelled from the spec: `repo_read` (declared in rdepinfo.h,
implementation absent) appends the packages of the well-formed stanzas to
the repository; malformed stanzas are dropped and parsing continues; the
returned count reports the whole buffer as processed. -/
def repo_read (repo : List Package) (buf : String) : List Package × Nat :=
  (repo ++ (stanzasOf buf).filterMap parseStanza, buf.length)

/-! ### Index and resolver (modelled from the spec; implementation absent
from src) -/

/-- All packages of a given name in the repository. -/
def packagesNamed (repo : List Package) (nm : String) : List Package :=
  repo.filter (fun p => p.name == nm)

/-- The packages of the reference's name whose version satisfies the
reference's (optional) constraint. -/
def candidates (repo : List Package) (r : NameAndVersion) : List Package :=
  repo.filter (fun p => p.name == r.name && satisfiesOpt p.version r.constraint)

/-- Modelled from the spec: the Index query `satisfies(name, constraint)` —
true iff at least one package under the name has a satisfying version. -/
def indexSatisfies (repo : List Package) (r : NameAndVersion) : Bool :=
  !(candidates repo r).isEmpty

/-- Modelled from the spec: `bestMatch(name, constraint)` — the highest
satisfying version under the name, or none. -/
def bestMatch (repo : List Package) (r : NameAndVersion) : Option Package :=
  match candidates repo r with
  | [] => none
  | p :: ps =>
    some (ps.foldl
      (fun b q => if Version.compare b.version q.version < 0 then q else b) p)

/-- Append an entry unless an equal (name, constraint) pair is already
in the result: first-discovered order, deduplicated. -/
def pushUnique (acc : List NameAndVersion) (r : NameAndVersion) :
    List NameAndVersion :=
  if r ∈ acc then acc else acc ++ [r]

/-- Modelled from the spec: the resolver's closure loop (§4.4).  Pops a
reference; if no package satisfies it the reference is emitted as
unsatisfied; otherwise its name is expanded once (visited-set) into its
dependency list.  The explicit fuel makes each step structural; the
termination theorem shows the bound `resolveFuel` never runs out. -/
def resolveGo (repo : List Package) :
    Nat → List String → List NameAndVersion → List NameAndVersion →
    Option (List NameAndVersion × List String)
  | 0, _, _, _ => none
  | _ + 1, visited, [], acc => some (acc, visited)
  | fuel + 1, visited, r :: rest, acc =>
    match bestMatch repo r with
    | none => resolveGo repo fuel visited rest (pushUnique acc r)
    | some p =>
      if r.name ∈ visited then resolveGo repo fuel visited rest acc
      else resolveGo repo fuel (r.name :: visited) (rest ++ p.depends) acc

/-- The longest dependency list of any package in the repository. -/
def maxDeps (repo : List Package) : Nat :=
  repo.foldr (fun p m => max p.depends.length m) 0

/-- Distinct package names of the repository not yet visited. -/
def unvisitedCard (repo : List Package) (visited : List String) : Nat :=
  ((repo.map Package.name).dedup.filter (fun n => decide (n ∉ visited))).length

/-- Work remaining: pending queue entries plus one expansion budget per
unvisited distinct name. -/
def resolveMeasure (repo : List Package) (visited : List String)
    (queue : List NameAndVersion) : Nat :=
  queue.length + unvisitedCard repo visited * (maxDeps repo + 1)

/-- Fuel sufficient for the whole traversal from the initial state. -/
def resolveFuel (repo : List Package) (roots : List NameAndVersion) : Nat :=
  resolveMeasure repo [] roots + 1

/-- Modelled from the spec: the batch resolver — closure over a sequence
of roots with one shared visited-set, returning the deduplicated
unsatisfied list and the visited names. -/
def resolveFull (repo : List Package) (roots : List NameAndVersion) :
    List NameAndVersion × List String :=
  (resolveGo repo (resolveFuel repo roots) [] roots []).getD ([], [])

/-- Modelled from the spec: `queryUnsatisfiedBatch` — the unsatisfied
entries of the batch closure. -/
def repo_index_unsatisfied_batch (repo : List Package)
    (roots : List NameAndVersion) : List NameAndVersion :=
  (resolveFull repo roots).1

/-- Modelled from the spec: `repo_index_unsatisfied` (declared in
rdepinfo.h, implementation absent) — `none` when the root name has no
entry in the index at all ("package not found"), otherwise the possibly
empty unsatisfied list of the closure from the unconstrained root. -/
def repo_index_unsatisfied (repo : List Package) (rootName : String) :
    Option (List NameAndVersion) :=
  if (packagesNamed repo rootName).isEmpty then none
  else some (repo_index_unsatisfied_batch repo [⟨rootName, none⟩])

/-! ### Helper lemmas -/

theorem parseComponents_length (l : List (List Char)) (ns : List Nat)
    (h : parseComponents l = some ns) : ns.length = l.length := by
  induction l generalizing ns with
  | nil =>
    simp only [parseComponents, Option.some.injEq] at h
    subst h; rfl
  | cons p rest ih =>
    simp only [parseComponents] at h
    rcases h1 : listToNat (trimList p) with _ | n <;> rw [h1] at h
    · cases h
    · rcases h2 : parseComponents rest with _ | ms <;> rw [h2] at h
      · cases h
      · simp only [Option.some.injEq] at h
        subst h
        simp [ih ms h2]

theorem pickBest_mem (ps : List Package) (p : Package) :
    ps.foldl (fun b q => if Version.compare b.version q.version < 0 then q else b)
      p ∈ p :: ps := by
  induction ps generalizing p with
  | nil => simp
  | cons q qs ih =>
    simp only [List.foldl_cons]
    rcases List.mem_cons.1
        (ih (if Version.compare p.version q.version < 0 then q else p)) with h | h
    · rw [h]
      split_ifs <;> simp
    · simp [h]

theorem candidates_sub (repo : List Package) (r : NameAndVersion) (p : Package)
    (h : p ∈ candidates repo r) : p ∈ repo ∧ p.name = r.name := by
  unfold candidates at h
  have hm := List.mem_filter.1 h
  refine ⟨hm.1, ?_⟩
  have hb := hm.2
  simp only [Bool.and_eq_true, beq_iff_eq] at hb
  exact hb.1

theorem bestMatch_mem (repo : List Package) (r : NameAndVersion) (p : Package)
    (h : bestMatch repo r = some p) : p ∈ repo ∧ p.name = r.name := by
  unfold bestMatch at h
  rcases hc : candidates repo r with _ | ⟨q, qs⟩ <;> rw [hc] at h
  · cases h
  · simp only [Option.some.injEq] at h
    subst h
    apply candidates_sub repo r _ ?_
    rw [hc]
    exact pickBest_mem qs q

theorem maxDeps_le (repo : List Package) (p : Package) (h : p ∈ repo) :
    p.depends.length ≤ maxDeps repo := by
  induction repo with
  | nil => cases h
  | cons q qs ih =>
    rcases List.mem_cons.1 h with h | h
    · subst h
      simp only [maxDeps, List.foldr_cons]
      exact le_max_left _ _
    · simp only [maxDeps, List.foldr_cons]
      exact le_trans (ih h) (le_max_right _ _)

theorem filter_unvisited_cons (a : String) (visited : List String) :
    ∀ l : List String, l.Nodup → a ∈ l → a ∉ visited →
      (l.filter (fun n => decide (n ∉ a :: visited))).length + 1 =
      (l.filter (fun n => decide (n ∉ visited))).length := by
  intro l
  induction l with
  | nil => intro _ h; cases h
  | cons x xs ih =>
    intro hnd hmem hav
    rw [List.nodup_cons] at hnd
    rw [List.filter_cons, List.filter_cons]
    rcases List.mem_cons.1 hmem with rfl | hmem'
    · have h1 : (decide (a ∉ a :: visited)) = false := by simp
      have h2 : (decide (a ∉ visited)) = true := by simp [hav]
      rw [h1, h2]
      have hfc : xs.filter (fun n => decide (n ∉ a :: visited)) =
          xs.filter (fun n => decide (n ∉ visited)) := by
        apply List.filter_congr
        intro n hn
        have hna : n ≠ a := fun h => hnd.1 (h ▸ hn)
        simp [List.mem_cons, hna]
      rw [if_neg (by simp), if_pos rfl, hfc]
      simp
    · have hxa : x ≠ a := fun h => hnd.1 (h ▸ hmem')
      have hsame : (decide (x ∉ a :: visited)) = (decide (x ∉ visited)) := by
        simp [List.mem_cons, hxa]
      rw [hsame]
      split_ifs with hx
      · simp only [List.length_cons]
        have := ih hnd.2 hmem' hav
        omega
      · exact ih hnd.2 hmem' hav

theorem unvisitedCard_cons (repo : List Package) (visited : List String)
    (a : String) (ha : a ∈ repo.map Package.name) (hv : a ∉ visited) :
    unvisitedCard repo (a :: visited) + 1 = unvisitedCard repo visited := by
  unfold unvisitedCard
  exact filter_unvisited_cons a visited (repo.map Package.name).dedup
    (List.nodup_dedup _) (List.mem_dedup.2 ha) hv

theorem resolveGo_isSome (repo : List Package) :
    ∀ fuel visited queue acc, resolveMeasure repo visited queue < fuel →
      (resolveGo repo fuel visited queue acc).isSome = true := by
  intro fuel
  induction fuel with
  | zero => intro visited queue acc h; exact absurd h (by omega)
  | succ f ih =>
    intro visited queue acc h
    match queue with
    | [] => simp [resolveGo]
    | r :: rest =>
      rcases hb : bestMatch repo r with _ | p
      · simp only [resolveGo, hb]
        apply ih
        unfold resolveMeasure at h ⊢
        simp only [List.length_cons] at h
        omega
      · by_cases hvis : r.name ∈ visited

        · simp only [resolveGo, hb, if_pos hvis]
          apply ih
          unfold resolveMeasure at h ⊢
          simp only [List.length_cons] at h
          omega
        · simp only [resolveGo, hb, if_neg hvis]
          apply ih
          have hmem := bestMatch_mem repo r p hb
          have hname : r.name ∈ repo.map Package.name := by
            rw [← hmem.2]; exact List.mem_map_of_mem _ hmem.1
          have hcard := unvisitedCard_cons repo visited r.name hname hvis
          have hdep : p.depends.length ≤ maxDeps repo := maxDeps_le repo p hmem.1
          have hexp : unvisitedCard repo visited * (maxDeps repo + 1) =
              unvisitedCard repo (r.name :: visited) * (maxDeps repo + 1) +
                (maxDeps repo + 1) := by
            rw [← hcard]; ring
          unfold resolveMeasure at h ⊢
          simp only [List.length_cons, List.length_append] at h ⊢
          omega

theorem resolveGo_visited (repo : List Package) :
    ∀ fuel visited queue acc res vis,
      resolveGo repo fuel visited queue acc = some (res, vis) →
      visited.Nodup → (∀ n ∈ visited, n ∈ repo.map Package.name) →
      vis.Nodup ∧ ∀ n ∈ vis, n ∈ repo.map Package.name := by
  intro fuel
  induction fuel with
  | zero => intro visited queue acc res vis h; cases h
  | succ f ih =>
    intro visited queue acc res vis h hnd hsub
    match queue with
    | [] =>
      simp only [resolveGo, Option.some.injEq, Prod.mk.injEq] at h
      rw [← h.2]
      exact ⟨hnd, hsub⟩
    | r :: rest =>
      rcases hb : bestMatch repo r with _ | p
      · simp only [resolveGo, hb] at h
        exact ih visited rest _ res vis h hnd hsub
      · by_cases hvis : r.name ∈ visited
        · simp only [resolveGo, hb, if_pos hvis] at h
          exact ih visited rest _ res vis h hnd hsub
        · simp only [resolveGo, hb, if_neg hvis] at h
          have hmem := bestMatch_mem repo r p hb
          have hname : r.name ∈ repo.map Package.name := by
            rw [← hmem.2]; exact List.mem_map_of_mem _ hmem.1
          refine ih _ _ _ res vis h (List.nodup_cons.2 ⟨hvis, hnd⟩) ?_
          intro n hn
          rcases List.mem_cons.1 hn with hn | hn
          · subst hn; exact hname
          · exact hsub n hn

theorem nodup_push (acc : List NameAndVersion) (r : NameAndVersion)
    (h : acc.Nodup) : (pushUnique acc r).Nodup := by
  unfold pushUnique
  split_ifs with hmem
  · exact h
  · rw [List.nodup_append]
    refine ⟨h, List.nodup_singleton r, ?_⟩
    intro a ha hra
    rw [List.mem_singleton] at hra
    subst hra
    exact hmem ha

theorem resolveGo_nodup (repo : List Package) :
    ∀ fuel visited queue acc res vis,
      acc.Nodup → resolveGo repo fuel visited queue acc = some (res, vis) →
      res.Nodup := by
  intro fuel
  induction fuel with
  | zero => intro visited queue acc res vis _ h; cases h
  | succ f ih =>
    intro visited queue acc res vis hnd h
    match queue with
    | [] =>
      simp only [resolveGo, Option.some.injEq, Prod.mk.injEq] at h
      rw [← h.1]
      exact hnd
    | r :: rest =>
      rcases hb : bestMatch repo r with _ | p
      · simp only [resolveGo, hb] at h
        exact ih visited rest _ res vis (nodup_push acc r hnd) h
      · by_cases hvis : r.name ∈ visited
        · simp only [resolveGo, hb, if_pos hvis] at h
          exact ih visited rest _ res vis hnd h
        · simp only [resolveGo, hb, if_neg hvis] at h
          exact ih _ _ _ res vis hnd h

/-! ### Example repositories used by the claims -/

/-- The three-package repository of the closure-correctness example:
A depends on B unconstrained, B@1.0 depends on C with `>= 2.0.0.0`,
C@1.0 has no dependencies. -/
def repoC1 : List Package :=
  [⟨"A", ⟨1, 0, 0, 0⟩, [⟨"B", none⟩]⟩,
   ⟨"B", ⟨1, 0, 0, 0⟩, [⟨"C", some ⟨.gte, ⟨2, 0, 0, 0⟩⟩⟩]⟩,
   ⟨"C", ⟨1, 0, 0, 0⟩, []⟩]

/-- A repository whose root A has all dependencies satisfiable. -/
def satRepo : List Package :=
  [⟨"A", ⟨1, 0, 0, 0⟩, [⟨"B", some ⟨.gte, ⟨1, 0, 0, 0⟩⟩⟩]⟩,
   ⟨"B", ⟨2, 0, 0, 0⟩, []⟩]

/-- The two-package dependency cycle A→B, B→A, both constraints
satisfiable. -/
def cycleRepo : List Package :=
  [⟨"A", ⟨1, 0, 0, 0⟩, [⟨"B", some ⟨.gte, ⟨1, 0, 0, 0⟩⟩⟩]⟩,
   ⟨"B", ⟨1, 0, 0, 0⟩, [⟨"A", some ⟨.gte, ⟨1, 0, 0, 0⟩⟩⟩]⟩]

/-- Roots A and D share the single missing dependency E. -/
def batchRepo : List Package :=
  [⟨"A", ⟨1, 0, 0, 0⟩, [⟨"E", none⟩]⟩,
   ⟨"D", ⟨1, 0, 0, 0⟩, [⟨"E", none⟩]⟩]

/-- A one-package repository for the unconstrained-dependency witness. -/
def repoC9 : List Package := [⟨"W", ⟨1, 2, 3, 4⟩, []⟩]

/-- A buffer whose middle stanza is malformed (missing the Package
field). -/
def bufC7 : String :=
  "Package: P\n\nVersion: 9\n\nPackage: Q"

/-! ### The claims -/

/-- Claim C1: in the repository with A→B (unconstrained), B@1.0→C
(`>= 2.0.0.0`) and C@1.0, resolving root A returns exactly the single
unsatisfied entry (C, >= 2.0.0.0): B's unconstrained dependency is
satisfied so traversal expands into B, and C@1.0 fails its constraint. -/
theorem claim_C1 :
    repo_index_unsatisfied repoC1 "A" =
      some [⟨"C", some ⟨Constraint.gte, ⟨2, 0, 0, 0⟩⟩⟩] := by rfl

/-- Claim C2: for every constraint (op, ref) and candidate version v,
`satisfies v (op, ref)` holds iff `compare v ref op 0` under the standard
meaning of the operator. -/
theorem claim_C2 (v : Version) (c : VersionConstraint) :
    (c.constraint = .lt →
      (satisfies v c = true ↔ Version.compare v c.version < 0)) ∧
    (c.constraint = .lte →
      (satisfies v c = true ↔ Version.compare v c.version ≤ 0)) ∧
    (c.constraint = .eq →
      (satisfies v c = true ↔ Version.compare v c.version = 0)) ∧
    (c.constraint = .gte →
      (satisfies v c = true ↔ 0 ≤ Version.compare v c.version)) ∧
    (c.constraint = .gt →
      (satisfies v c = true ↔ 0 < Version.compare v c.version)) := by
  obtain ⟨op, ref⟩ := c
  cases op <;> simp [satisfies]

/-- Witness for claim C2 at op = `>=`, v = 3.0.0.0, ref = 2.0.0.0. -/
theorem claim_C2_witness :
    satisfies ⟨3, 0, 0, 0⟩ ⟨.gte, ⟨2, 0, 0, 0⟩⟩ = true ↔
      0 ≤ Version.compare ⟨3, 0, 0, 0⟩ ⟨2, 0, 0, 0⟩ :=
  (claim_C2 ⟨3, 0, 0, 0⟩ ⟨.gte, ⟨2, 0, 0, 0⟩⟩).2.2.2.1 rfl

theorem cmpNat_neg (a b : Nat) : cmpNat a b = -cmpNat b a := by
  unfold cmpNat
  split_ifs <;> omega

theorem cmpNat_lt_iff (a b : Nat) : cmpNat a b < 0 ↔ a < b := by
  unfold cmpNat
  split_ifs <;> omega

theorem cmpNat_eq_iff (a b : Nat) : cmpNat a b = 0 ↔ a = b := by
  unfold cmpNat
  split_ifs <;>
    (first
      | omega
      | (simp only [false_iff, iff_false, true_iff, iff_true, true_and,
          and_true, false_and, and_false, true_or, or_true, false_or,
          or_false]; omega))

theorem cmpNat_vals (a b : Nat) :
    cmpNat a b = -1 ∨ cmpNat a b = 0 ∨ cmpNat a b = 1 := by
  unfold cmpNat
  split_ifs <;> omega

theorem compare_lt_iff (a b : Version) :
    Version.compare a b < 0 ↔ lexLt a b := by
  unfold Version.compare
  by_cases h1 : a.major = b.major <;> by_cases h2 : a.minor = b.minor <;>
    by_cases h3 : a.patch = b.patch <;>
    simp only [h1, h2, h3, ne_eq, not_true_eq_false, not_false_eq_true,
      if_false, if_true, lexLt, cmpNat_lt_iff] <;>
    (first
      | omega
      | (simp only [false_iff, iff_false, true_iff, iff_true, true_and,
          and_true, false_and, and_false, true_or, or_true, false_or,
          or_false]; (try omega)))

theorem compare_eq_iff (a b : Version) :
    Version.compare a b = 0 ↔
      (a.major = b.major ∧ a.minor = b.minor ∧ a.patch = b.patch ∧
        a.rev = b.rev) := by
  unfold Version.compare
  by_cases h1 : a.major = b.major <;> by_cases h2 : a.minor = b.minor <;>
    by_cases h3 : a.patch = b.patch <;>
    simp only [h1, h2, h3, ne_eq, not_true_eq_false, not_false_eq_true,
      if_false, if_true, cmpNat_eq_iff] <;>
    (first
      | omega
      | (simp only [false_iff, iff_false, true_iff, iff_true, true_and,
          and_true, false_and, and_false, true_or, or_true, false_or,
          or_false]))

theorem compare_neg (a b : Version) :
    Version.compare a b = -Version.compare b a := by
  unfold Version.compare
  by_cases h1 : a.major = b.major
  · by_cases h2 : a.minor = b.minor
    · by_cases h3 : a.patch = b.patch
      · simp only [h1, h2, h3, ne_eq, not_true_eq_false, if_false]
        exact cmpNat_neg _ _
      · simp only [h1, h2, ne_eq, h3, not_false_eq_true, if_true,
          Ne.symm h3, not_true_eq_false, if_false]
        exact cmpNat_neg _ _
    · simp only [h1, ne_eq, h2, not_false_eq_true, if_true, Ne.symm h2,
        not_true_eq_false, if_false]
      exact cmpNat_neg _ _
  · simp only [ne_eq, h1, not_false_eq_true, if_true, Ne.symm h1,
      not_true_eq_false, if_false]
    exact cmpNat_neg _ _

theorem compare_vals (a b : Version) :
    Version.compare a b = -1 ∨ Version.compare a b = 0 ∨
      Version.compare a b = 1 := by
  unfold Version.compare
  by_cases h1 : a.major = b.major <;> by_cases h2 : a.minor = b.minor <;>
    by_cases h3 : a.patch = b.patch <;>
    simp only [h1, h2, h3, ne_eq, not_true_eq_false, not_false_eq_true,
      if_false, if_true] <;>
    exact cmpNat_vals _ _

theorem version_eq_iff (a b : Version) :
    a = b ↔ (a.major = b.major ∧ a.minor = b.minor ∧ a.patch = b.patch ∧
      a.rev = b.rev) := by
  obtain ⟨a1, a2, a3, a4⟩ := a
  obtain ⟨b1, b2, b3, b4⟩ := b
  simp [Version.mk.injEq]

theorem lexLt_trans (a b c : Version) (h1 : lexLt a b) (h2 : lexLt b c) :
    lexLt a c := by
  simp only [lexLt] at h1 h2 ⊢
  omega

theorem compare_le_trans (a b c : Version)
    (h1 : Version.compare a b ≤ 0) (h2 : Version.compare b c ≤ 0) :
    Version.compare a c ≤ 0 := by
  rcases compare_vals a b with hab | hab | hab
  · rcases compare_vals b c with hbc | hbc | hbc
    · have la := (compare_lt_iff a b).1 (by omega)
      have lb := (compare_lt_iff b c).1 (by omega)
      have lc := (compare_lt_iff a c).2 (lexLt_trans a b c la lb)
      omega
    · have hbc' := (version_eq_iff b c).2 ((compare_eq_iff b c).1 hbc)
      rw [← hbc']
      exact h1
    · omega
  · have hab' := (version_eq_iff a b).2 ((compare_eq_iff a b).1 hab)
    rw [hab']
    exact h2
  · omega

/-- Claim C3: version comparison is antisymmetric
(`compare a b = -compare b a`), its induced ordering is transitive,
comparison equality holds iff the four components are pairwise equal, and
the strict order is exactly lexicographic over (major, minor, patch, rev). -/
theorem claim_C3 (a b c : Version) :
    Version.compare a b = -Version.compare b a ∧
    (Version.compare a b ≤ 0 → Version.compare b c ≤ 0 →
      Version.compare a c ≤ 0) ∧
    (Version.compare a b = 0 ↔
      (a.major = b.major ∧ a.minor = b.minor ∧ a.patch = b.patch ∧
        a.rev = b.rev)) ∧
    (Version.compare a b < 0 ↔ lexLt a b) :=
  ⟨compare_neg a b, compare_le_trans a b c, compare_eq_iff a b,
    compare_lt_iff a b⟩

/-- Witness for claim C3: transitivity applied at 1.0.0.0 ≤ 2.0.0.0 ≤
3.0.0.0. -/
theorem claim_C3_witness :
    Version.compare ⟨1, 0, 0, 0⟩ ⟨3, 0, 0, 0⟩ ≤ 0 :=
  (claim_C3 ⟨1, 0, 0, 0⟩ ⟨2, 0, 0, 0⟩ ⟨3, 0, 0, 0⟩).2.1 (by decide) (by decide)

/-- Claim C4: a root name with no entry in the index yields the absent
(`none`) "package not found" signal, and only then — a present root with
all dependencies satisfiable yields a present result with zero entries
(witnessed by `satRepo`). -/
theorem claim_C4 :
    (∀ (repo : List Package) (root : String),
      repo_index_unsatisfied repo root = none ↔
        packagesNamed repo root = []) ∧
    repo_index_unsatisfied satRepo "A" = some [] ∧
    repo_index_unsatisfied satRepo "Zzz" = none := by
  refine ⟨?_, by rfl, by rfl⟩
  intro repo root
  unfold repo_index_unsatisfied
  split_ifs with h
  · simp only [List.isEmpty_iff] at h
    simp [h]
  · simp only [List.isEmpty_iff] at h
    simp [h]

/-- Claim C5: the closure traversal always terminates within the fuel
bound derived from the repository (the fuel never runs out), the visited
set never exceeds the number of distinct package names, and the
two-package cycle A→B, B→A with satisfiable constraints resolves from
root A to an empty unsatisfied set. -/
theorem claim_C5 :
    (∀ (repo : List Package) (roots : List NameAndVersion),
      ∃ res vis,
        resolveGo repo (resolveFuel repo roots) [] roots [] =
          some (res, vis) ∧
        vis.length ≤ (repo.map Package.name).dedup.length) ∧
    repo_index_unsatisfied_batch cycleRepo [⟨"A", none⟩] = [] := by
  refine ⟨?_, by rfl⟩
  intro repo roots
  have hs := resolveGo_isSome repo (resolveFuel repo roots) [] roots []
    (by unfold resolveFuel; omega)
  rcases ho : resolveGo repo (resolveFuel repo roots) [] roots []
    with _ | ⟨res, vis⟩
  · rw [ho] at hs; cases hs
  · refine ⟨res, vis, rfl, ?_⟩
    have hv := resolveGo_visited repo (resolveFuel repo roots) [] roots []
      res vis ho List.nodup_nil (by intro n hn; cases hn)
    calc vis.length = vis.toFinset.card :=
          (List.toFinset_card_of_nodup hv.1).symm
      _ ≤ (repo.map Package.name).toFinset.card := by
          apply Finset.card_le_card
          intro x hx
          rw [List.mem_toFinset] at hx ⊢
          exact hv.2 x hx
      _ = (repo.map Package.name).dedup.length := List.card_toFinset _

/-- Claim C6: every resolution result is deduplicated by (name,
constraint); in the batch form two roots sharing a missing dependency E
report E exactly once, and independent missing roots appear in
first-discovered order. -/
theorem claim_C6 :
    (∀ (repo : List Package) (roots : List NameAndVersion),
      (repo_index_unsatisfied_batch repo roots).Nodup) ∧
    repo_index_unsatisfied_batch batchRepo [⟨"A", none⟩, ⟨"D", none⟩] =
      [⟨"E", none⟩] ∧
    repo_index_unsatisfied_batch [] [⟨"X", none⟩, ⟨"Y", none⟩] =
      [⟨"X", none⟩, ⟨"Y", none⟩] := by
  refine ⟨?_, by rfl, by rfl⟩
  intro repo roots
  unfold repo_index_unsatisfied_batch resolveFull
  rcases ho : resolveGo repo (resolveFuel repo roots) [] roots []
    with _ | ⟨res, vis⟩
  · simp
  · simp only [Option.getD_some]
    exact resolveGo_nodup repo (resolveFuel repo roots) [] roots [] res vis
      List.nodup_nil ho

/-- Claim C7: a malformed stanza drops only itself — the repository
receives exactly the packages of the well-formed stanzas, nothing partial
from the malformed one, and the read still reports the whole buffer as
processed. -/
theorem claim_C7 (repo : List Package) (buf : String)
    (pre post : List (List String)) (bad : List String)
    (h1 : stanzasOf buf = pre ++ bad :: post)
    (h2 : parseStanza bad = none) :
    (repo_read repo buf).1 =
      repo ++ (pre.filterMap parseStanza ++ post.filterMap parseStanza) ∧
    (repo_read repo buf).2 = buf.length := by
  constructor
  · simp [repo_read, h1, List.filterMap_append, List.filterMap_cons, h2]
  · rfl

/-- Witness for claim C7 at a buffer whose middle stanza lacks the
Package field. -/
theorem claim_C7_witness :
    (repo_read [] bufC7).1 =
      [] ++ ([["Package: P"]].filterMap parseStanza ++
        [["Package: Q"]].filterMap parseStanza) ∧
    (repo_read [] bufC7).2 = bufC7.length :=
  claim_C7 [] bufC7 [["Package: P"]] [["Package: Q"]]
    ["Version: 9"] (by rfl) (by rfl)

/-- Claim C8: a version string with fewer than four dot-separated
components parses with the missing trailing components defaulted to 0. -/
theorem claim_C8 (s : String) (v : Version) (h : parseVersion s = some v) :
    ((versionParts s).length ≤ 3 → v.rev = 0) ∧
    ((versionParts s).length ≤ 2 → v.patch = 0) ∧
    ((versionParts s).length ≤ 1 → v.minor = 0) := by
  unfold parseVersion at h
  rcases hp : parseComponents (versionParts s) with _ | ns <;> rw [hp] at h
  · cases h
  · simp only [Option.some.injEq] at h
    subst h
    have hlen := parseComponents_length (versionParts s) ns hp
    refine ⟨fun hle => ?_, fun hle => ?_, fun hle => ?_⟩ <;>
      dsimp only [Version.ofNats] <;>
      rw [List.getD_eq_default _ _ (by omega)] <;>
      rfl

/-- Witness for claim C8 at "1.2", which parses to (1, 2, 0, 0). -/
theorem claim_C8_witness :
    ((versionParts "1.2").length ≤ 3 → (Version.mk 1 2 0 0).rev = 0) ∧
    ((versionParts "1.2").length ≤ 2 → (Version.mk 1 2 0 0).patch = 0) ∧
    ((versionParts "1.2").length ≤ 1 → (Version.mk 1 2 0 0).minor = 0) :=
  claim_C8 "1.2" ⟨1, 2, 0, 0⟩ (by rfl)

/-- Claim C9: an unconstrained dependency reference is satisfied by any
version of the named package present in the index (absence of a
constraint is absence of the optional value, which always succeeds). -/
theorem claim_C9 (repo : List Package) (nm : String)
    (h : packagesNamed repo nm ≠ []) :
    (∀ p ∈ packagesNamed repo nm, satisfiesOpt p.version none = true) ∧
    indexSatisfies repo ⟨nm, none⟩ = true ∧
    (bestMatch repo ⟨nm, none⟩).isSome = true := by
  have hc : candidates repo ⟨nm, none⟩ = packagesNamed repo nm := by
    simp [candidates, packagesNamed, satisfiesOpt]
  refine ⟨fun p _ => rfl, ?_, ?_⟩
  · unfold indexSatisfies
    rw [hc]
    simp [List.isEmpty_iff, h]
  · unfold bestMatch
    rw [hc]
    rcases hq : packagesNamed repo nm with _ | ⟨q, qs⟩
    · exact absurd hq h
    · simp

/-- Witness for claim C9 at the one-package repository `repoC9`. -/
theorem claim_C9_witness :
    (∀ p ∈ packagesNamed repoC9 "W", satisfiesOpt p.version none = true) ∧
    indexSatisfies repoC9 ⟨"W", none⟩ = true ∧
    (bestMatch repoC9 ⟨"W", none⟩).isSome = true :=
  claim_C9 repoC9 "W" (List.cons_ne_nil _ _)

theorem u32_eq_iff (a : Nat) : u32 a = a ↔ a < 2 ^ 32 := by
  unfold u32
  constructor
  · intro h
    rw [← h]
    exact Nat.mod_lt _ (by norm_num)
  · exact Nat.mod_eq_of_lt

theorem u32_lt (a : Nat) (h : 2 ^ 32 ≤ a) : u32 a < a :=
  lt_of_lt_of_le (Nat.mod_lt _ (by norm_num)) h

/-- Claim C10: version components are stored as 32-bit unsigned fields —
storage is reduction modulo 2^32, it is the identity exactly for values
below 2^32, and a value at or above 2^32 is strictly reduced, not
extended. -/
theorem claim_C10 (a b c d : Nat) :
    Version.ofNats a b c d =
      ⟨a % 2 ^ 32, b % 2 ^ 32, c % 2 ^ 32, d % 2 ^ 32⟩ ∧
    (Version.ofNats a b c d = ⟨a, b, c, d⟩ ↔
      (a < 2 ^ 32 ∧ b < 2 ^ 32 ∧ c < 2 ^ 32 ∧ d < 2 ^ 32)) ∧
    (2 ^ 32 ≤ a → (Version.ofNats a b c d).major < a) := by
  refine ⟨rfl, ?_, fun h => u32_lt a h⟩
  have hinj : (Version.ofNats a b c d = ⟨a, b, c, d⟩) ↔
      (u32 a = a ∧ u32 b = b ∧ u32 c = c ∧ u32 d = d) := by
    simp [Version.ofNats, Version.mk.injEq]
  rw [hinj, u32_eq_iff, u32_eq_iff, u32_eq_iff, u32_eq_iff]

/-- Witness for claim C10 at a = 2^32: the stored major component is
strictly smaller than the original value. -/
theorem claim_C10_witness :
    (Version.ofNats (2 ^ 32) 0 0 0).major < 2 ^ 32 :=
  (claim_C10 (2 ^ 32) 0 0 0).2.2 (le_refl _)

end RDep
